import Mathlib

/-!
Verification of the word-alignment core of the `word_aligner` service
(`src/word_aligner.py`), as a shallow embedding in Lean 4.

Texts are modelled as `List Char` (Python `str`), token triples
`(word, start, end)` as `List Char × Nat × Nat`, Python exceptions as
`Except String`, and the external simalign `SentenceAligner.get_word_aligns`
collaborator as an explicit function argument returning an association
list (the iteration order of the Python dict `items()`).
-/

/-- Python's `\s` character class for `str` patterns (Unicode whitespace),
used by `re.finditer(r'\S+', text)` in `WordAligner.__tokenize`. -/
def pyIsSpace (c : Char) : Bool :=
  let n := c.toNat
  n = 0x20 || (0x9 ≤ n && n ≤ 0xD) || (0x1C ≤ n && n ≤ 0x1F) ||
  n = 0x85 || n = 0xA0 || n = 0x1680 || (0x2000 ≤ n && n ≤ 0x200A) ||
  n = 0x2028 || n = 0x2029 || n = 0x202F || n = 0x205F || n = 0x3000

/-- The scanning loop of `re.finditer(r'\S+', text)`: skip whitespace,
emit each maximal run of non-whitespace characters together with its
match start `m.start()` and end `m.end()`.  The `fuel` argument only
drives the structural recursion; every step consumes at least one
character, so `fuel = text.length` suffices (see `tokenizeAux_fuel`). -/
def tokenizeAux : Nat → List Char → Nat → List (List Char × Nat × Nat)
  | 0, _, _ => []
  | _ + 1, [], _ => []
  | fuel + 1, c :: cs, pos =>
    if pyIsSpace c then
      tokenizeAux fuel cs (pos + 1)
    else
      (List.takeWhile (fun x => !pyIsSpace x) (c :: cs), pos,
        pos + (List.takeWhile (fun x => !pyIsSpace x) (c :: cs)).length) ::
        tokenizeAux fuel (List.dropWhile (fun x => !pyIsSpace x) (c :: cs))
          (pos + (List.takeWhile (fun x => !pyIsSpace x) (c :: cs)).length)

/-- `WordAligner.__tokenize`: `[(m.group(), m.start(), m.end()) for m in
re.finditer(r'\S+', text)]`. -/
def tokenize (text : List Char) : List (List Char × Nat × Nat) :=
  tokenizeAux text.length text 0

/-- Python slice `l[a:b]` for `0 ≤ a ≤ b` (character indices). -/
def pySlice (l : List Char) (a b : Nat) : List Char :=
  (l.drop a).take (b - a)

/-- `all_matching_methods` from `src/word_aligner.py`: the dict mapping
the constructor's one-letter matching-method key to the simalign method
label, in insertion order. -/
def all_matching_methods : List (String × String) :=
  [("a", "inter"), ("m", "mwmf"), ("i", "itermax"), ("f", "fwd"), ("r", "rev")]

/-- The `AlignmentResult` dataclass of `src/word_aligner.py`. -/
structure AlignmentResult where
  src_word : List Char
  target_word : List Char
  src_indexes : Nat × Nat
  target_indexes : Nat × Nat
deriving DecidableEq, Repr

/-- The `WordAligner` class: the only constructed state that the
alignment computation reads is the resolved method label
`self.__method`. -/
structure WordAligner where
  method : String
deriving DecidableEq, Repr

/-- `WordAligner.__init__`: `self.__method =
all_matching_methods[matching_method]`; a key missing from the dict
raises `KeyError`, so construction fails. -/
def WordAligner.init (matching_method : String) : Except String WordAligner :=
  match all_matching_methods.lookup matching_method with
  | some full => .ok ⟨full⟩
  | none => .error ("KeyError")

/-- Construction with the default argument `matching_method = "m"` of
`WordAligner.__init__`. -/
def WordAligner.initDefault : Except String WordAligner :=
  WordAligner.init ("m")

/-- The selection made by the loop `for method, pairs in
alignments.items(): if method != self.__method: continue` in
`get_word_alignment`: the first entry whose key is the configured
method, if any. -/
def findMethod (method : String) :
    List (String × List (Nat × Nat)) → Option (List (Nat × Nat))
  | [] => none
  | (m, pairs) :: rest =>
    if m = method then some pairs else findMethod method rest

/-- The record-building loop of `get_word_alignment`: for each index pair
look both tokens up in the token tables and build an `AlignmentResult`
(`src_word[0]` is the word, `src_word[1:]` the offset pair).  A Python
list index out of range raises `IndexError`, aborting the request with no
partial result. -/
def assemble (srcToks tgtToks : List (List Char × Nat × Nat)) :
    List (Nat × Nat) → Except String (List AlignmentResult)
  | [] => .ok []
  | (i, j) :: ps =>
    match srcToks[i]?, tgtToks[j]? with
    | some sw, some tw =>
      match assemble srcToks tgtToks ps with
      | .ok rest =>
        .ok ({ src_word := sw.1,
               target_word := tw.1,
               src_indexes := (sw.2.1, sw.2.2),
               target_indexes := (tw.2.1, tw.2.2) } :: rest)
      | .error err => .error err
    | _, _ => .error ("IndexError")

/-- `WordAligner.get_word_alignment`.  The external
`SentenceAligner.get_word_aligns` collaborator is passed in as `aligner`;
it receives the two word lists and returns the items of its result dict
in iteration order. -/
def get_word_alignment (w : WordAligner)
    (aligner : List (List Char) → List (List Char) →
      List (String × List (Nat × Nat)))
    (src_text target_text : List Char) :
    Except String (List AlignmentResult) :=
  let src_text_tokenize := tokenize src_text
  let src_text_split := src_text_tokenize.map (fun t => t.1)
  let target_text_tokenize := tokenize target_text
  let target_text_split := target_text_tokenize.map (fun t => t.1)
  if src_text_split.length = 0 ∨ target_text_split.length = 0 then
    .error ("Source or target text is empty")
  else
    let alignments := aligner src_text_split target_text_split
    match findMethod w.method alignments with
    | some pairs => assemble src_text_tokenize target_text_tokenize pairs
    | none => .ok []

/-- Spec-side predicate: `s`,`e` delimit a maximal run of non-whitespace
characters of `text`. -/
def IsMaximalRun (text : List Char) (s e : Nat) : Prop :=
  s < e ∧ e ≤ text.length ∧
  (∀ k, s ≤ k → k < e → ∃ ch, text[k]? = some ch ∧ pyIsSpace ch = false) ∧
  (s = 0 ∨ ∃ ch, text[s - 1]? = some ch ∧ pyIsSpace ch = true) ∧
  (e = text.length ∨ ∃ ch, text[e]? = some ch ∧ pyIsSpace ch = true)

/-- Spec-side description of the record the Assembler builds from one
index pair (stated with a default token so it is total; the theorems keep
the indices in bounds). -/
def mkRecord (srcToks tgtToks : List (List Char × Nat × Nat))
    (p : Nat × Nat) : AlignmentResult :=
  let sw := srcToks.getD p.1 ([], 0, 0)
  let tw := tgtToks.getD p.2 ([], 0, 0)
  { src_word := sw.1, target_word := tw.1,
    src_indexes := (sw.2.1, sw.2.2), target_indexes := (tw.2.1, tw.2.2) }


/-- Modelled from the spec: the matching methods are computed inside the
external `simalign` package (`SentenceAligner.get_word_aligns`), whose
code is not part of this repository, so the argmax scan underlying the
`forward` method is taken from the spec's words: running best index and
value, updated only on a strictly larger value so that ties keep the
lowest index. -/
def argmaxFrom (best : Nat) (bestVal : ℚ) (k : Nat) : List ℚ → Nat
  | [] => best
  | v :: vs =>
    if bestVal < v then argmaxFrom k v (k + 1) vs
    else argmaxFrom best bestVal (k + 1) vs

/-- Modelled from the spec: `argmax_j matrix[i][j]` with ties broken by
lowest `j` (code lives in the external `simalign` package). -/
def argmaxRow : List ℚ → Nat
  | [] => 0
  | v :: vs => argmaxFrom 0 v 1 vs

/-- Modelled from the spec: the `forward` matching method (code lives in
the external `simalign` package): for each source index `i`, emit
`(i, argmax_j matrix[i][j])`. -/
def forward (matrix : List (List ℚ)) : List (Nat × Nat) :=
  (List.range matrix.length).map (fun i => (i, argmaxRow (matrix.getD i [])))


example : tokenize (("ab cd").data) =
    [(['a','b'], 0, 2), (['c','d'], 3, 5)] := by decide

example : tokenize (("  ").data) = [] := by decide

example : tokenize ((" x ").data) = [(['x'], 1, 2)] := by decide

theorem length_dropWhile_le (p : Char → Bool) (l : List Char) :
    (l.dropWhile p).length ≤ l.length := by
  conv_rhs => rw [← List.takeWhile_append_dropWhile p l]
  rw [List.length_append]
  omega

theorem length_takeWhile_add_dropWhile (p : Char → Bool) (l : List Char) :
    (l.takeWhile p).length + (l.dropWhile p).length = l.length := by
  conv_rhs => rw [← List.takeWhile_append_dropWhile p l]
  rw [List.length_append]

/-- The result of the scanner does not depend on the fuel, as long as the
fuel covers the length of the remaining text. -/
theorem tokenizeAux_fuel : ∀ fuel fuel' (l : List Char) (pos : Nat),
    l.length ≤ fuel → l.length ≤ fuel' →
    tokenizeAux fuel l pos = tokenizeAux fuel' l pos := by
  intro fuel
  induction fuel with
  | zero =>
    intro fuel' l pos h _
    have hl : l = [] := List.length_eq_zero.mp (Nat.le_zero.mp h)
    subst hl
    cases fuel' <;> rfl
  | succ n ih =>
    intro fuel' l pos h h'
    cases l with
    | nil => cases fuel' <;> rfl
    | cons c cs =>
      cases fuel' with
      | zero => simp at h'
      | succ n' =>
        rw [tokenizeAux, tokenizeAux]
        by_cases hc : pyIsSpace c
        · rw [if_pos hc, if_pos hc]
          exact ih n' cs (pos + 1) (by simpa using h) (by simpa using h')
        · rw [if_neg hc, if_neg hc]
          have hrun : 0 < ((c :: cs).takeWhile (fun x => !pyIsSpace x)).length := by
            rw [List.takeWhile_cons]
            simp [hc]
          have hdl := length_takeWhile_add_dropWhile (fun x => !pyIsSpace x) (c :: cs)
          simp only [List.length_cons] at h h' hdl
          have hlen : ((c :: cs).dropWhile (fun x => !pyIsSpace x)).length ≤ n := by
            omega
          have hlen' : ((c :: cs).dropWhile (fun x => !pyIsSpace x)).length ≤ n' := by
            omega
          rw [ih n' _ _ hlen hlen']


theorem takeWhile_cons_not_space (c : Char) (cs : List Char)
    (hc : pyIsSpace c = false) :
    List.takeWhile (fun x => !pyIsSpace x) (c :: cs) =
      c :: List.takeWhile (fun x => !pyIsSpace x) cs := by
  rw [List.takeWhile_cons]
  simp [hc]

theorem dropWhile_head_space (l : List Char) (d : Char)
    (h : (List.dropWhile (fun x => !pyIsSpace x) l)[0]? = some d) :
    pyIsSpace d = true := by
  rw [List.getElem?_eq_some] at h
  obtain ⟨hlt, hget⟩ := h
  have hns := List.dropWhile_get_zero_not (fun x => !pyIsSpace x) l hlt
  simp only [List.get_eq_getElem] at hns
  rw [hget] at hns
  simpa using hns

/-- Every token of the scanner starts at or after the scan position. -/
theorem tokenizeAux_start_ge : ∀ fuel (l : List Char) (pos : Nat)
    (w : List Char) (s e : Nat),
    (w, s, e) ∈ tokenizeAux fuel l pos → pos ≤ s := by
  intro fuel
  induction fuel with
  | zero => intro l pos w s e hmem; rw [tokenizeAux] at hmem; simp at hmem
  | succ n ih =>
    intro l pos w s e hmem
    cases l with
    | nil => rw [tokenizeAux] at hmem; simp at hmem
    | cons c cs =>
      rw [tokenizeAux] at hmem
      by_cases hc : pyIsSpace c
      · rw [if_pos hc] at hmem
        have := ih cs (pos + 1) w s e hmem
        omega
      · rw [if_neg hc] at hmem
        rcases List.mem_cons.mp hmem with heq | hmem'
        · cases heq
          exact Nat.le_refl _
        · have := ih _ _ w s e hmem'
          omega

/-- When the text starts with a whitespace character, every token starts
strictly after the scan position. -/
theorem tokenizeAux_start_gt (fuel : Nat) (c : Char) (cs : List Char)
    (pos : Nat) (hc : pyIsSpace c = true) (w : List Char) (s e : Nat)
    (hmem : (w, s, e) ∈ tokenizeAux fuel (c :: cs) pos) : pos + 1 ≤ s := by
  cases fuel with
  | zero => rw [tokenizeAux] at hmem; simp at hmem
  | succ n =>
    rw [tokenizeAux, if_pos hc] at hmem
    exact tokenizeAux_start_ge n cs (pos + 1) w s e hmem

theorem tokenizeAux_nil_any (fuel pos : Nat) : tokenizeAux fuel [] pos = [] := by
  cases fuel <;> rw [tokenizeAux]

/-- Indexing a text at or past its leading non-whitespace run reads from
the remainder left by `dropWhile`. -/
theorem getElem_cons_rest (c : Char) (cs : List Char) (i : Nat)
    (hi : (List.takeWhile (fun x => !pyIsSpace x) (c :: cs)).length ≤ i) :
    (c :: cs)[i]? =
      (List.dropWhile (fun x => !pyIsSpace x) (c :: cs))[i -
        (List.takeWhile (fun x => !pyIsSpace x) (c :: cs)).length]? := by
  have hsplit := List.takeWhile_append_dropWhile (fun x => !pyIsSpace x) (c :: cs)
  have hgar : (List.takeWhile (fun x => !pyIsSpace x) (c :: cs) ++
      List.dropWhile (fun x => !pyIsSpace x) (c :: cs))[i]? =
      (List.dropWhile (fun x => !pyIsSpace x) (c :: cs))[i -
        (List.takeWhile (fun x => !pyIsSpace x) (c :: cs)).length]? :=
    List.getElem?_append_right hi
  rw [hsplit] at hgar
  exact hgar

/-- Soundness of the scanner: every emitted token is a non-empty,
whitespace-free run of the scanned text whose word is the exact slice of
the text at its offsets, bounded on both sides by the text's edge or by a
whitespace character (offsets relative to the scan position `pos`). -/
theorem tokenizeAux_sound : ∀ fuel (l : List Char) (pos : Nat),
    l.length ≤ fuel →
    ∀ w s e, (w, s, e) ∈ tokenizeAux fuel l pos →
      pos ≤ s ∧ e = s + w.length ∧ w ≠ [] ∧
      (∀ ch ∈ w, pyIsSpace ch = false) ∧
      w = (l.drop (s - pos)).take w.length ∧
      e - pos ≤ l.length ∧
      (s = pos ∨ ∃ ch, l[s - pos - 1]? = some ch ∧ pyIsSpace ch = true) ∧
      (e - pos = l.length ∨ ∃ ch, l[e - pos]? = some ch ∧ pyIsSpace ch = true) := by
  intro fuel
  induction fuel with
  | zero => intro l pos h w s e hmem; rw [tokenizeAux] at hmem; simp at hmem
  | succ n ih =>
    intro l pos h w s e hmem
    cases l with
    | nil => rw [tokenizeAux] at hmem; simp at hmem
    | cons c cs =>
      rw [tokenizeAux] at hmem
      by_cases hc : pyIsSpace c
      · rw [if_pos hc] at hmem
        obtain ⟨h1, h2, h3, h4, h5, h6, h7, h8⟩ :=
          ih cs (pos + 1) (by simpa using h) w s e hmem
        refine ⟨by omega, h2, h3, h4, ?_, ?_, ?_, ?_⟩
        · have e1 : (c :: cs).drop (s - pos) = cs.drop (s - (pos + 1)) := by
            have hidx : s - pos = (s - (pos + 1)) + 1 := by omega
            rw [hidx, List.drop_succ_cons]
          rw [e1]
          exact h5
        · simp only [List.length_cons]
          omega
        · right
          by_cases hs : s = pos + 1
          · refine ⟨c, ?_, hc⟩
            have hidx : s - pos - 1 = 0 := by omega
            rw [hidx]
            simp
          · rcases h7 with h7 | ⟨ch, hch, hsp⟩
            · exact absurd h7 hs
            · refine ⟨ch, ?_, hsp⟩
              have hidx : s - pos - 1 = (s - pos - 2) + 1 := by omega
              rw [hidx, List.getElem?_cons_succ]
              have hidx2 : s - (pos + 1) - 1 = s - pos - 2 := by omega
              rw [hidx2] at hch
              exact hch
        · have he : pos + 1 ≤ e := by omega
          rcases h8 with h8 | ⟨ch, hch, hsp⟩
          · left
            simp only [List.length_cons]
            omega
          · right
            refine ⟨ch, ?_, hsp⟩
            have hidx : e - pos = (e - pos - 1) + 1 := by omega
            rw [hidx, List.getElem?_cons_succ]
            have hidx2 : e - (pos + 1) = e - pos - 1 := by omega
            rw [hidx2] at hch
            exact hch
      · rw [if_neg hc] at hmem
        have hc' : pyIsSpace c = false := by simpa using hc
        have hsplit := List.takeWhile_append_dropWhile (fun x => !pyIsSpace x) (c :: cs)
        have hlen_sum := length_takeWhile_add_dropWhile (fun x => !pyIsSpace x) (c :: cs)
        have hrun_cons := takeWhile_cons_not_space c cs hc'
        have hrun_pos : 0 < (List.takeWhile (fun x => !pyIsSpace x) (c :: cs)).length := by
          rw [hrun_cons]
          simp
        have hdrop : (c :: cs).drop
            (List.takeWhile (fun x => !pyIsSpace x) (c :: cs)).length =
            List.dropWhile (fun x => !pyIsSpace x) (c :: cs) := by
          have hdl := List.drop_left (List.takeWhile (fun x => !pyIsSpace x) (c :: cs))
            (List.dropWhile (fun x => !pyIsSpace x) (c :: cs))
          rw [hsplit] at hdl
          exact hdl
        have htake : (c :: cs).take
            (List.takeWhile (fun x => !pyIsSpace x) (c :: cs)).length =
            List.takeWhile (fun x => !pyIsSpace x) (c :: cs) := by
          have htl := List.take_left (List.takeWhile (fun x => !pyIsSpace x) (c :: cs))
            (List.dropWhile (fun x => !pyIsSpace x) (c :: cs))
          rw [hsplit] at htl
          exact htl
        rcases List.mem_cons.mp hmem with heq | hmem'
        · injection heq with hw hrest
          injection hrest with hs he
          subst hw hs he
          refine ⟨Nat.le_refl _, by omega, ?_, ?_, ?_, ?_, Or.inl rfl, ?_⟩
          · rw [hrun_cons]
            simp
          · intro ch hch
            have := List.mem_takeWhile_imp hch
            simpa using this
          · simp [htake]
          · simp only [List.length_cons] at hlen_sum ⊢
            omega
          · have hidx : s + (List.takeWhile (fun x => !pyIsSpace x) (c :: cs)).length - s =
                (List.takeWhile (fun x => !pyIsSpace x) (c :: cs)).length := by omega
            rw [hidx]
            cases hrest : List.dropWhile (fun x => !pyIsSpace x) (c :: cs) with
            | nil =>
              left
              rw [hrest] at hlen_sum
              simp only [List.length_nil, Nat.add_zero] at hlen_sum
              exact hlen_sum
            | cons d ds =>
              right
              refine ⟨d, ?_, dropWhile_head_space (c :: cs) d (by rw [hrest]; simp)⟩
              rw [getElem_cons_rest c cs _ (Nat.le_refl _), hrest]
              simp
        · have hfb : (List.dropWhile (fun x => !pyIsSpace x) (c :: cs)).length ≤ n := by
            simp only [List.length_cons] at h hlen_sum
            omega
          obtain ⟨h1, h2, h3, h4, h5, h6, h7, h8⟩ := ih _ _ hfb w s e hmem'
          cases hrest : List.dropWhile (fun x => !pyIsSpace x) (c :: cs) with
          | nil =>
            rw [hrest, tokenizeAux_nil_any] at hmem'
            simp at hmem'
          | cons d ds =>
            have hd : pyIsSpace d = true :=
              dropWhile_head_space (c :: cs) d (by rw [hrest]; simp)
            have hgt : pos + (List.takeWhile (fun x => !pyIsSpace x) (c :: cs)).length + 1 ≤ s :=
              tokenizeAux_start_gt n d ds _ hd w s e (hrest ▸ hmem')
            refine ⟨by omega, h2, h3, h4, ?_, ?_, ?_, ?_⟩
            · have e1 : (c :: cs).drop (s - pos) =
                  (List.dropWhile (fun x => !pyIsSpace x) (c :: cs)).drop
                    (s - (pos + (List.takeWhile (fun x => !pyIsSpace x) (c :: cs)).length)) := by
                rw [← hdrop, List.drop_drop]
                congr 1
                omega
              rw [e1]
              exact h5
            · simp only [List.length_cons] at hlen_sum ⊢
              omega
            · right
              rcases h7 with h7 | ⟨ch, hch, hsp⟩
              · omega
              · refine ⟨ch, ?_, hsp⟩
                rw [getElem_cons_rest c cs _ (by omega :
                  (List.takeWhile (fun x => !pyIsSpace x) (c :: cs)).length ≤ s - pos - 1)]
                have hidx : s - pos - 1 -
                    (List.takeWhile (fun x => !pyIsSpace x) (c :: cs)).length =
                    s - (pos + (List.takeWhile (fun x => !pyIsSpace x) (c :: cs)).length) - 1 := by
                  omega
                rw [hidx]
                exact hch
            · have he : pos + (List.takeWhile (fun x => !pyIsSpace x) (c :: cs)).length ≤ e := by
                omega
              rcases h8 with h8 | ⟨ch, hch, hsp⟩
              · left
                simp only [List.length_cons] at hlen_sum ⊢
                omega
              · right
                refine ⟨ch, ?_, hsp⟩
                rw [getElem_cons_rest c cs _ (by omega :
                  (List.takeWhile (fun x => !pyIsSpace x) (c :: cs)).length ≤ e - pos)]
                have hidx : e - pos -
                    (List.takeWhile (fun x => !pyIsSpace x) (c :: cs)).length =
                    e - (pos + (List.takeWhile (fun x => !pyIsSpace x) (c :: cs)).length) := by
                  omega
                rw [hidx]
                exact hch

/-- Completeness of the scanner: every non-whitespace character of the
scanned text is covered by some emitted token's span. -/
theorem tokenizeAux_coverage : ∀ fuel (l : List Char) (pos k : Nat) (ch : Char),
    l.length ≤ fuel → l[k]? = some ch → pyIsSpace ch = false →
    ∃ w s e, (w, s, e) ∈ tokenizeAux fuel l pos ∧ s ≤ pos + k ∧ pos + k < e := by
  intro fuel
  induction fuel with
  | zero =>
    intro l pos k ch h hk _
    have hl : l = [] := List.length_eq_zero.mp (Nat.le_zero.mp h)
    subst hl
    simp at hk
  | succ n ih =>
    intro l pos k ch h hk hch
    cases l with
    | nil => simp at hk
    | cons c cs =>
      rw [tokenizeAux]
      by_cases hc : pyIsSpace c
      · rw [if_pos hc]
        cases k with
        | zero =>
          simp only [List.getElem?_cons_zero, Option.some.injEq] at hk
          rw [← hk] at hch
          rw [hc] at hch
          simp at hch
        | succ k' =>
          rw [List.getElem?_cons_succ] at hk
          obtain ⟨w, s, e, hmem, hle, hlt⟩ :=
            ih cs (pos + 1) k' ch (by simpa using h) hk hch
          exact ⟨w, s, e, hmem, by omega, by omega⟩
      · rw [if_neg hc]
        have hc' : pyIsSpace c = false := by simpa using hc
        have hlen_sum := length_takeWhile_add_dropWhile (fun x => !pyIsSpace x) (c :: cs)
        have hrun_pos : 0 < (List.takeWhile (fun x => !pyIsSpace x) (c :: cs)).length := by
          rw [takeWhile_cons_not_space c cs hc']
          simp
        by_cases hklt : k < (List.takeWhile (fun x => !pyIsSpace x) (c :: cs)).length
        · refine ⟨List.takeWhile (fun x => !pyIsSpace x) (c :: cs), pos,
            pos + (List.takeWhile (fun x => !pyIsSpace x) (c :: cs)).length,
            List.mem_cons_self _ _, by omega, by omega⟩
        · have hkge : (List.takeWhile (fun x => !pyIsSpace x) (c :: cs)).length ≤ k := by
            omega
          have hk' : (List.dropWhile (fun x => !pyIsSpace x) (c :: cs))[k -
              (List.takeWhile (fun x => !pyIsSpace x) (c :: cs)).length]? = some ch := by
            rw [← getElem_cons_rest c cs k hkge]
            exact hk
          have hfb : (List.dropWhile (fun x => !pyIsSpace x) (c :: cs)).length ≤ n := by
            simp only [List.length_cons] at h hlen_sum
            omega
          obtain ⟨w, s, e, hmem, hle, hlt⟩ := ih _
            (pos + (List.takeWhile (fun x => !pyIsSpace x) (c :: cs)).length)
            (k - (List.takeWhile (fun x => !pyIsSpace x) (c :: cs)).length) ch hfb hk' hch
          refine ⟨w, s, e, List.mem_cons_of_mem _ hmem, by omega, by omega⟩

/-- The scanner's tokens are emitted in left-to-right order: each token
ends at or before the start of every later token. -/
theorem tokenizeAux_pairwise : ∀ fuel (l : List Char) (pos : Nat),
    List.Pairwise (fun a b => a.2.2 ≤ b.2.1) (tokenizeAux fuel l pos) := by
  intro fuel
  induction fuel with
  | zero => intro l pos; rw [tokenizeAux]; exact List.Pairwise.nil
  | succ n ih =>
    intro l pos
    cases l with
    | nil => rw [tokenizeAux]; exact List.Pairwise.nil
    | cons c cs =>
      rw [tokenizeAux]
      by_cases hc : pyIsSpace c
      · rw [if_pos hc]
        exact ih cs (pos + 1)
      · rw [if_neg hc]
        rw [List.pairwise_cons]
        refine ⟨?_, ih _ _⟩
        rintro ⟨w, s, e⟩ hmem
        exact tokenizeAux_start_ge n _ _ w s e hmem

/-- A text consisting solely of whitespace characters yields no tokens. -/
theorem tokenizeAux_all_space : ∀ fuel (l : List Char) (pos : Nat),
    (∀ ch ∈ l, pyIsSpace ch = true) → tokenizeAux fuel l pos = [] := by
  intro fuel
  induction fuel with
  | zero => intro l pos _; rw [tokenizeAux]
  | succ n ih =>
    intro l pos hsp
    cases l with
    | nil => rw [tokenizeAux]
    | cons c cs =>
      rw [tokenizeAux]
      have hc : pyIsSpace c = true := hsp c (List.mem_cons_self _ _)
      rw [if_pos hc]
      exact ih cs (pos + 1) (fun ch hch => hsp ch (List.mem_cons_of_mem _ hch))

/-- Characters inside a slice, read back through the original text. -/
theorem pySlice_getElem (text w : List Char) (s e k : Nat)
    (hw : w = pySlice text s e) (hlen : e = s + w.length)
    (hks : s ≤ k) (hke : k < e) :
    text[k]? = w[k - s]? := by
  subst hw
  rw [pySlice]
  rw [List.getElem?_take]
  rw [if_pos (by omega : k - s < e - s)]
  rw [List.getElem?_drop]
  congr 1
  omega

/-- Top-level soundness of `tokenize`: every token's word is the exact
slice of the text at the token's offsets, is non-empty and
whitespace-free, and the offsets delimit a boundary-maximal run. -/
theorem tokenize_sound (text : List Char) (w : List Char) (s e : Nat)
    (hmem : (w, s, e) ∈ tokenize text) :
    e = s + w.length ∧ w ≠ [] ∧ (∀ ch ∈ w, pyIsSpace ch = false) ∧
    w = pySlice text s e ∧ e ≤ text.length ∧
    (s = 0 ∨ ∃ ch, text[s - 1]? = some ch ∧ pyIsSpace ch = true) ∧
    (e = text.length ∨ ∃ ch, text[e]? = some ch ∧ pyIsSpace ch = true) := by
  obtain ⟨h1, h2, h3, h4, h5, h6, h7, h8⟩ :=
    tokenizeAux_sound text.length text 0 (Nat.le_refl _) w s e hmem
  refine ⟨h2, h3, h4, ?_, by omega, ?_, ?_⟩
  · rw [pySlice]
    have hd : e - s = w.length := by omega
    rw [hd]
    simpa using h5
  · simpa using h7
  · rcases h8 with h8 | h8
    · left
      omega
    · right
      simpa using h8

/-- Tokens of `tokenize` delimit maximal runs. -/
theorem tokenize_isMaximalRun (text : List Char) (w : List Char) (s e : Nat)
    (hmem : (w, s, e) ∈ tokenize text) : IsMaximalRun text s e := by
  obtain ⟨h1, h2, h3, h4, h5, h6, h7⟩ := tokenize_sound text w s e hmem
  refine ⟨?_, h5, ?_, h6, h7⟩
  · have : w.length ≠ 0 := fun hz => h2 (List.length_eq_zero.mp hz)
    omega
  · intro k hks hke
    have hkk : text[k]? = w[k - s]? := pySlice_getElem text w s e k h4 h1 hks hke
    have hklt : k - s < w.length := by omega
    obtain ⟨ch, hch⟩ : ∃ ch, w[k - s]? = some ch := by
      rw [List.getElem?_eq_getElem hklt]
      exact ⟨_, rfl⟩
    refine ⟨ch, by rw [hkk, hch], h3 ch (List.getElem?_mem hch)⟩

/-- Completeness of `tokenize` over the full text. -/
theorem tokenize_coverage (text : List Char) (k : Nat) (ch : Char)
    (hk : text[k]? = some ch) (hch : pyIsSpace ch = false) :
    ∃ w s e, (w, s, e) ∈ tokenize text ∧ s ≤ k ∧ k < e := by
  obtain ⟨w, s, e, hmem, hle, hlt⟩ :=
    tokenizeAux_coverage text.length text 0 k ch (Nat.le_refl _) hk hch
  exact ⟨w, s, e, hmem, by omega, by omega⟩

/-- With all indices in bounds, the record loop succeeds and produces
exactly the per-pair records, in pair order. -/
theorem assemble_eq_map (srcToks tgtToks : List (List Char × Nat × Nat)) :
    ∀ pairs : List (Nat × Nat),
    (∀ p ∈ pairs, p.1 < srcToks.length ∧ p.2 < tgtToks.length) →
    assemble srcToks tgtToks pairs =
      .ok (pairs.map (mkRecord srcToks tgtToks)) := by
  intro pairs
  induction pairs with
  | nil => intro _; rfl
  | cons p ps ih =>
    intro hb
    obtain ⟨hi, hj⟩ := hb p (List.mem_cons_self _ _)
    obtain ⟨i, j⟩ := p
    rw [assemble]
    rw [List.getElem?_eq_getElem hi, List.getElem?_eq_getElem hj]
    rw [ih (fun q hq => hb q (List.mem_cons_of_mem _ hq))]
    simp only [List.map_cons]
    rw [mkRecord]
    simp only [List.getD_eq_getElem srcToks ([], 0, 0) hi,
      List.getD_eq_getElem tgtToks ([], 0, 0) hj]

/-- Every record the loop produces is built from a token of each table. -/
theorem assemble_mem (srcToks tgtToks : List (List Char × Nat × Nat)) :
    ∀ (pairs : List (Nat × Nat)) (records : List AlignmentResult)
      (r : AlignmentResult),
    assemble srcToks tgtToks pairs = .ok records → r ∈ records →
    (∃ st ∈ srcToks, r.src_word = st.1 ∧ r.src_indexes = (st.2.1, st.2.2)) ∧
    (∃ ut ∈ tgtToks, r.target_word = ut.1 ∧
      r.target_indexes = (ut.2.1, ut.2.2)) := by
  intro pairs
  induction pairs with
  | nil =>
    intro records r hok hr
    rw [assemble] at hok
    injection hok with hok
    rw [← hok] at hr
    simp at hr
  | cons p ps ih =>
    intro records r hok hr
    obtain ⟨i, j⟩ := p
    rw [assemble] at hok
    cases hsi : srcToks[i]? with
    | none => rw [hsi] at hok; simp at hok
    | some sw =>
      cases htj : tgtToks[j]? with
      | none => rw [hsi, htj] at hok; simp at hok
      | some tw =>
        rw [hsi, htj] at hok
        cases hrec : assemble srcToks tgtToks ps with
        | error err => rw [hrec] at hok; simp at hok
        | ok rest =>
          rw [hrec] at hok
          injection hok with hok
          rw [← hok] at hr
          rcases List.mem_cons.mp hr with heq | hr'
          · subst heq
            exact ⟨⟨sw, List.getElem?_mem hsi, rfl, rfl⟩,
              ⟨tw, List.getElem?_mem htj, rfl, rfl⟩⟩
          · exact ih rest r hrec hr'

/-- The only error the record loop can raise is the index error. -/
theorem assemble_error (srcToks tgtToks : List (List Char × Nat × Nat)) :
    ∀ (pairs : List (Nat × Nat)) (err : String),
    assemble srcToks tgtToks pairs = .error err → err = "IndexError" := by
  intro pairs
  induction pairs with
  | nil => intro err h; rw [assemble] at h; simp at h
  | cons p ps ih =>
    intro err h
    obtain ⟨i, j⟩ := p
    rw [assemble] at h
    cases hsi : srcToks[i]? with
    | none =>
      rw [hsi] at h
      injection h with h
      exact h.symm
    | some sw =>
      cases htj : tgtToks[j]? with
      | none =>
        rw [hsi, htj] at h
        injection h with h
        exact h.symm
      | some tw =>
        rw [hsi, htj] at h
        cases hrec : assemble srcToks tgtToks ps with
        | error err2 =>
          rw [hrec] at h
          injection h with h
          rw [← h]
          exact ih err2 hrec
        | ok rest => rw [hrec] at h; simp at h

/-- If no entry of the association list carries the method key, the
selection loop finds nothing. -/
theorem findMethod_none (method : String) :
    ∀ l : List (String × List (Nat × Nat)),
    (∀ entry ∈ l, entry.1 ≠ method) → findMethod method l = none := by
  intro l
  induction l with
  | nil => intro _; rfl
  | cons entry rest ih =>
    intro h
    obtain ⟨m, pairs⟩ := entry
    rw [findMethod]
    rw [if_neg (h (m, pairs) (List.mem_cons_self _ _))]
    exact ih (fun q hq => h q (List.mem_cons_of_mem _ hq))

/-- The running-argmax scan returns either the incoming champion (when
nothing beats it) or the position of the first element that attains the
maximum and strictly exceeds the incoming value. -/
theorem argmaxFrom_correct : ∀ (vs : List ℚ) (best : Nat) (bestVal : ℚ)
    (k : Nat),
    (argmaxFrom best bestVal k vs = best ∧
      (∀ t, t < vs.length → vs.getD t 0 ≤ bestVal)) ∨
    (∃ t, t < vs.length ∧ argmaxFrom best bestVal k vs = k + t ∧
      bestVal < vs.getD t 0 ∧
      (∀ u, u < vs.length → vs.getD u 0 ≤ vs.getD t 0) ∧
      (∀ u, u < t → vs.getD u 0 < vs.getD t 0)) := by
  intro vs
  induction vs with
  | nil =>
    intro best bestVal k
    left
    exact ⟨rfl, fun t ht => by simp at ht⟩
  | cons v vs ih =>
    intro best bestVal k
    rw [argmaxFrom]
    by_cases hv : bestVal < v
    · rw [if_pos hv]
      rcases ih k v (k + 1) with ⟨heq, hle⟩ | ⟨t, ht, heq, hgt, hall, hbefore⟩
      · right
        refine ⟨0, by simp, by omega, by simpa using hv, ?_, ?_⟩
        · intro u hu
          cases u with
          | zero => simp
          | succ u' =>
            simp only [List.getD_cons_succ, List.getD_cons_zero]
            exact hle u' (by simpa using hu)
        · intro u hu
          omega
      · right
        refine ⟨t + 1, by simpa using ht, by omega, ?_, ?_, ?_⟩
        · simp only [List.getD_cons_succ]
          exact lt_trans hv hgt
        · intro u hu
          cases u with
          | zero =>
            simp only [List.getD_cons_succ, List.getD_cons_zero]
            exact le_of_lt hgt
          | succ u' =>
            simp only [List.getD_cons_succ]
            exact hall u' (by simpa using hu)
        · intro u hu
          cases u with
          | zero =>
            simp only [List.getD_cons_succ, List.getD_cons_zero]
            exact hgt
          | succ u' =>
            simp only [List.getD_cons_succ]
            exact hbefore u' (by omega)
    · rw [if_neg hv]
      rcases ih best bestVal (k + 1) with ⟨heq, hle⟩ | ⟨t, ht, heq, hgt, hall, hbefore⟩
      · left
        refine ⟨heq, ?_⟩
        intro t ht
        cases t with
        | zero =>
          simp only [List.getD_cons_zero]
          exact le_of_not_lt hv
        | succ t' =>
          simp only [List.getD_cons_succ]
          exact hle t' (by simpa using ht)
      · right
        refine ⟨t + 1, by simpa using ht, by omega, ?_, ?_, ?_⟩
        · simp only [List.getD_cons_succ]
          exact hgt
        · intro u hu
          cases u with
          | zero =>
            simp only [List.getD_cons_succ, List.getD_cons_zero]
            exact le_of_lt (lt_of_le_of_lt (le_of_not_lt hv) hgt)
          | succ u' =>
            simp only [List.getD_cons_succ]
            exact hall u' (by simpa using hu)
        · intro u hu
          cases u with
          | zero =>
            simp only [List.getD_cons_succ, List.getD_cons_zero]
            exact lt_of_le_of_lt (le_of_not_lt hv) hgt
          | succ u' =>
            simp only [List.getD_cons_succ]
            exact hbefore u' (by omega)

/-- `argmaxRow` on a non-empty row is the position of the maximum, with
ties resolved to the lowest index. -/
theorem argmaxRow_spec (row : List ℚ) (hrow : row ≠ []) :
    argmaxRow row < row.length ∧
    (∀ u, u < row.length → row.getD u 0 ≤ row.getD (argmaxRow row) 0) ∧
    (∀ u, u < argmaxRow row → row.getD u 0 < row.getD (argmaxRow row) 0) := by
  cases row with
  | nil => exact absurd rfl hrow
  | cons v vs =>
    rw [argmaxRow]
    rcases argmaxFrom_correct vs 0 v 1 with ⟨heq, hle⟩ | ⟨t, ht, heq, hgt, hall, hbefore⟩
    · rw [heq]
      refine ⟨by simp, ?_, ?_⟩
      · intro u hu
        cases u with
        | zero => simp
        | succ u' =>
          simp only [List.getD_cons_succ, List.getD_cons_zero]
          exact hle u' (by simpa using hu)
      · intro u hu
        omega
    · rw [heq]
      have hidx : 1 + t = t + 1 := by omega
      rw [hidx]
      refine ⟨by simpa using ht, ?_, ?_⟩
      · intro u hu
        cases u with
        | zero =>
          simp only [List.getD_cons_succ, List.getD_cons_zero]
          exact le_of_lt hgt
        | succ u' =>
          simp only [List.getD_cons_succ]
          exact hall u' (by simpa using hu)
      · intro u hu
        cases u with
        | zero =>
          simp only [List.getD_cons_succ, List.getD_cons_zero]
          exact hgt
        | succ u' =>
          simp only [List.getD_cons_succ]
          exact hbefore u' (by omega)

/-- A dict lookup succeeds exactly when the key is among the dict's
keys. -/
theorem lookup_some_iff_mem_keys (m : String) :
    ∀ l : List (String × String),
    (∃ v, l.lookup m = some v) ↔ m ∈ l.map Prod.fst := by
  intro l
  induction l with
  | nil => simp [List.lookup]
  | cons kv rest ih =>
    obtain ⟨k, val⟩ := kv
    by_cases hk : m = k
    · subst hk
      rw [List.lookup]
      simp
    · rw [List.lookup]
      have hbeq : (m == k) = false := by simp [hk]
      rw [hbeq]
      simp only [List.map_cons, List.mem_cons]
      rw [← ih]
      constructor
      · intro h
        right
        exact h
      · intro h
        rcases h with h | h
        · exact absurd h hk
        · exact h

/-- `get_word_alignment`, rephrased with its emptiness test expressed on
the token sequences themselves. -/
theorem get_word_alignment_eq (w : WordAligner)
    (aligner : List (List Char) → List (List Char) →
      List (String × List (Nat × Nat)))
    (src_text target_text : List Char) :
    get_word_alignment w aligner src_text target_text =
      if tokenize src_text = [] ∨ tokenize target_text = [] then
        .error ("Source or target text is empty")
      else
        match findMethod w.method
            (aligner ((tokenize src_text).map (fun t => t.1))
              ((tokenize target_text).map (fun t => t.1))) with
        | some pairs =>
          assemble (tokenize src_text) (tokenize target_text) pairs
        | none => .ok [] := by
  have hbase : get_word_alignment w aligner src_text target_text =
      if ((tokenize src_text).map (fun t => t.1)).length = 0 ∨
          ((tokenize target_text).map (fun t => t.1)).length = 0 then
        .error ("Source or target text is empty")
      else
        match findMethod w.method
            (aligner ((tokenize src_text).map (fun t => t.1))
              ((tokenize target_text).map (fun t => t.1))) with
        | some pairs =>
          assemble (tokenize src_text) (tokenize target_text) pairs
        | none => .ok [] := rfl
  rw [hbase]
  by_cases h : tokenize src_text = [] ∨ tokenize target_text = []
  · have hA : ((tokenize src_text).map (fun t => t.1)).length = 0 ∨
        ((tokenize target_text).map (fun t => t.1)).length = 0 := by
      rcases h with h | h
      · left
        rw [List.length_map, List.length_eq_zero]
        exact h
      · right
        rw [List.length_map, List.length_eq_zero]
        exact h
    rw [if_pos hA, if_pos h]
  · have hA : ¬ (((tokenize src_text).map (fun t => t.1)).length = 0 ∨
        ((tokenize target_text).map (fun t => t.1)).length = 0) := by
      intro hcon
      apply h
      rcases hcon with hc | hc
      · left
        rw [List.length_map, List.length_eq_zero] at hc
        exact hc
      · right
        rw [List.length_map, List.length_eq_zero] at hc
        exact hc
    rw [if_neg hA, if_neg h]

/-- C1: `get_word_alignment` fails with `ValueError("Source or target
text is empty")` if and only if at least one of the two texts tokenizes
to an empty token sequence, and in the failing case the result does not
depend on the external aligner, i.e. the failure happens before
`get_word_aligns` is consulted. -/
theorem c1_empty_validation (w : WordAligner)
    (aligner : List (List Char) → List (List Char) →
      List (String × List (Nat × Nat)))
    (src_text target_text : List Char) :
    (get_word_alignment w aligner src_text target_text =
        .error ("Source or target text is empty") ↔
      (tokenize src_text = [] ∨ tokenize target_text = [])) ∧
    ((tokenize src_text = [] ∨ tokenize target_text = []) →
      ∀ aligner2, get_word_alignment w aligner src_text target_text =
        get_word_alignment w aligner2 src_text target_text) := by
  constructor
  · constructor
    · intro h
      by_contra hne
      rw [get_word_alignment_eq, if_neg hne] at h
      cases hfm : findMethod w.method
          (aligner ((tokenize src_text).map (fun t => t.1))
            ((tokenize target_text).map (fun t => t.1))) with
      | none => rw [hfm] at h; simp at h
      | some pairs =>
        rw [hfm] at h
        have hmsg := assemble_error _ _ pairs _ h
        exact absurd hmsg (by decide)
    · intro h
      rw [get_word_alignment_eq, if_pos h]
  · intro h aligner2
    rw [get_word_alignment_eq w aligner src_text target_text,
      get_word_alignment_eq w aligner2 src_text target_text,
      if_pos h, if_pos h]

theorem c1_empty_validation_witness :
    get_word_alignment ⟨"mwmf"⟩ (fun _ _ => [("mwmf", [(0, 0)])])
        ((" ").data) (("b").data) =
      .error ("Source or target text is empty") ∧
    get_word_alignment ⟨"mwmf"⟩ (fun _ _ => [("mwmf", [(0, 0)])])
        ((" ").data) (("b").data) =
      get_word_alignment ⟨"mwmf"⟩ (fun _ _ => []) ((" ").data)
        (("b").data) :=
  ⟨(c1_empty_validation ⟨"mwmf"⟩ (fun _ _ => [("mwmf", [(0, 0)])])
      ((" ").data) (("b").data)).1.mpr (Or.inl (by decide)),
   (c1_empty_validation ⟨"mwmf"⟩ (fun _ _ => [("mwmf", [(0, 0)])])
      ((" ").data) (("b").data)).2 (Or.inl (by decide)) (fun _ _ => [])⟩

/-- C2: every record returned by `get_word_alignment` satisfies the
round-trip property: its words are the exact slices of the original
texts delimited by its spans. -/
theorem c2_roundtrip (w : WordAligner)
    (aligner : List (List Char) → List (List Char) →
      List (String × List (Nat × Nat)))
    (src_text target_text : List Char) (records : List AlignmentResult)
    (hok : get_word_alignment w aligner src_text target_text =
      .ok records) :
    ∀ r ∈ records,
      r.src_word = pySlice src_text r.src_indexes.1 r.src_indexes.2 ∧
      r.target_word =
        pySlice target_text r.target_indexes.1 r.target_indexes.2 := by
  intro r hr
  rw [get_word_alignment_eq] at hok
  by_cases h : tokenize src_text = [] ∨ tokenize target_text = []
  · rw [if_pos h] at hok
    simp at hok
  · rw [if_neg h] at hok
    cases hfm : findMethod w.method
        (aligner ((tokenize src_text).map (fun t => t.1))
          ((tokenize target_text).map (fun t => t.1))) with
    | none =>
      rw [hfm] at hok
      injection hok with hok
      rw [← hok] at hr
      simp at hr
    | some pairs =>
      rw [hfm] at hok
      obtain ⟨⟨st, hstmem, hw1, hw2⟩, ⟨ut, hutmem, hw3, hw4⟩⟩ :=
        assemble_mem (tokenize src_text) (tokenize target_text) pairs
          records r hok hr
      obtain ⟨sw, ss, se⟩ := st
      obtain ⟨uw, us, ue⟩ := ut
      have hs := tokenize_sound src_text sw ss se hstmem
      have hu := tokenize_sound target_text uw us ue hutmem
      constructor
      · rw [hw1, hw2]
        exact hs.2.2.2.1
      · rw [hw3, hw4]
        exact hu.2.2.2.1

theorem c2_roundtrip_witness :
    ({ src_word := ['a','b'], target_word := ['x','y'],
       src_indexes := (0, 2), target_indexes := (0, 2) } :
      AlignmentResult).src_word =
      pySlice (("ab cd").data)
        ({ src_word := ['a','b'], target_word := ['x','y'],
           src_indexes := (0, 2), target_indexes := (0, 2) } :
          AlignmentResult).src_indexes.1
        ({ src_word := ['a','b'], target_word := ['x','y'],
           src_indexes := (0, 2), target_indexes := (0, 2) } :
          AlignmentResult).src_indexes.2 ∧
    ({ src_word := ['a','b'], target_word := ['x','y'],
       src_indexes := (0, 2), target_indexes := (0, 2) } :
      AlignmentResult).target_word =
      pySlice (("xy").data)
        ({ src_word := ['a','b'], target_word := ['x','y'],
           src_indexes := (0, 2), target_indexes := (0, 2) } :
          AlignmentResult).target_indexes.1
        ({ src_word := ['a','b'], target_word := ['x','y'],
           src_indexes := (0, 2), target_indexes := (0, 2) } :
          AlignmentResult).target_indexes.2 :=
  c2_roundtrip ⟨"mwmf"⟩ (fun _ _ => [("mwmf", [(0, 0)])])
    (("ab cd").data) (("xy").data)
    [{ src_word := ['a','b'], target_word := ['x','y'],
       src_indexes := (0, 2), target_indexes := (0, 2) }]
    rfl _ (by decide)

/-- C3: `tokenize` returns exactly the maximal runs of non-whitespace
characters of the input, in left-to-right order, each with the exact
character offsets of that run; empty and whitespace-only inputs yield
the empty sequence. -/
theorem c3_tokenize_maximal_runs (text : List Char) :
    (∀ w s e, (w, s, e) ∈ tokenize text →
      IsMaximalRun text s e ∧ w = pySlice text s e) ∧
    (∀ k ch, text[k]? = some ch → pyIsSpace ch = false →
      ∃ w s e, (w, s, e) ∈ tokenize text ∧ s ≤ k ∧ k < e) ∧
    List.Pairwise (fun a b => a.2.2 ≤ b.2.1) (tokenize text) ∧
    ((∀ ch ∈ text, pyIsSpace ch = true) → tokenize text = []) := by
  refine ⟨?_, ?_, ?_, ?_⟩
  · intro w s e hmem
    exact ⟨tokenize_isMaximalRun text w s e hmem,
      (tokenize_sound text w s e hmem).2.2.2.1⟩
  · intro k ch hk hch
    exact tokenize_coverage text k ch hk hch
  · exact tokenizeAux_pairwise text.length text 0
  · intro h
    exact tokenizeAux_all_space text.length text 0 h

theorem c3_tokenize_maximal_runs_witness :
    IsMaximalRun ((" ab ").data) 1 3 ∧
    (∃ w s e, (w, s, e) ∈ tokenize ((" ab ").data) ∧ s ≤ 2 ∧ 2 < e) ∧
    tokenize (("  ").data) = [] :=
  ⟨((c3_tokenize_maximal_runs ((" ab ").data)).1 ['a','b'] 1 3
      (by decide)).1,
   (c3_tokenize_maximal_runs ((" ab ").data)).2.1 2 'b' (by decide)
     (by decide),
   (c3_tokenize_maximal_runs (("  ").data)).2.2.2 (by decide)⟩

/-- C4: when the configured method does not occur among the keys of the
mapping returned by the upstream aligner, `get_word_alignment` returns
the empty list instead of raising. -/
theorem c4_method_mismatch (w : WordAligner)
    (aligner : List (List Char) → List (List Char) →
      List (String × List (Nat × Nat)))
    (src_text target_text : List Char)
    (hsrc : tokenize src_text ≠ []) (htgt : tokenize target_text ≠ [])
    (hmiss : ∀ entry ∈ aligner ((tokenize src_text).map (fun t => t.1))
        ((tokenize target_text).map (fun t => t.1)),
      entry.1 ≠ w.method) :
    get_word_alignment w aligner src_text target_text = .ok [] := by
  rw [get_word_alignment_eq,
    if_neg (by
      intro hcon
      rcases hcon with hc | hc
      · exact hsrc hc
      · exact htgt hc)]
  rw [findMethod_none w.method _ hmiss]

theorem c4_method_mismatch_witness :
    get_word_alignment ⟨"mwmf"⟩ (fun _ _ => [("inter", [(0, 0)])])
      (("a").data) (("b").data) = .ok [] :=
  c4_method_mismatch ⟨"mwmf"⟩ (fun _ _ => [("inter", [(0, 0)])])
    (("a").data) (("b").data) (by decide) (by decide) (by decide)

/-- C5: with the Matcher's bounds contract satisfied, the record loop
produces exactly one record per pair, in the order the pairs were
emitted. -/
theorem c5_assemble_order (srcToks tgtToks : List (List Char × Nat × Nat))
    (pairs : List (Nat × Nat))
    (hb : ∀ p ∈ pairs, p.1 < srcToks.length ∧ p.2 < tgtToks.length) :
    assemble srcToks tgtToks pairs =
      .ok (pairs.map (mkRecord srcToks tgtToks)) ∧
    (pairs.map (mkRecord srcToks tgtToks)).length = pairs.length :=
  ⟨assemble_eq_map srcToks tgtToks pairs hb, List.length_map _ _⟩

theorem c5_assemble_order_witness :
    assemble [(['a'], 0, 1)] [(['b'], 0, 1)] [(0, 0)] =
      .ok ([(0, 0)].map (mkRecord [(['a'], 0, 1)] [(['b'], 0, 1)])) ∧
    ([(0, 0)].map (mkRecord [(['a'], 0, 1)] [(['b'], 0, 1)])).length =
      [(0, 0)].length :=
  c5_assemble_order [(['a'], 0, 1)] [(['b'], 0, 1)] [(0, 0)] (by decide)

/-- C6: under the Matcher's bounds contract, the token-table lookups in
the record loop never go out of bounds, so the `IndexError` branch is
unreachable and the loop succeeds. -/
theorem c6_no_out_of_bounds (srcToks tgtToks : List (List Char × Nat × Nat))
    (pairs : List (Nat × Nat))
    (hb : ∀ p ∈ pairs, p.1 < srcToks.length ∧ p.2 < tgtToks.length) :
    ∃ records, assemble srcToks tgtToks pairs = .ok records :=
  ⟨pairs.map (mkRecord srcToks tgtToks),
    assemble_eq_map srcToks tgtToks pairs hb⟩

theorem c6_no_out_of_bounds_witness :
    ∃ records, assemble [(['c'], 0, 1), (['d'], 2, 3)] [(['e'], 0, 1)]
      [(1, 0), (0, 0)] = .ok records :=
  c6_no_out_of_bounds [(['c'], 0, 1), (['d'], 2, 3)] [(['e'], 0, 1)]
    [(1, 0), (0, 0)] (by decide)

/-- C7: constructing a `WordAligner` succeeds exactly for the recognized
method keys `a`, `m`, `i`, `f`, `r` (an unrecognized key fails at
construction time), and `get_word_alignment` itself can only fail with
the empty-text validation error or the index error — never with a
method-recognition error. -/
theorem c7_method_validation :
    (∀ m : String, (∃ wa, WordAligner.init m = .ok wa) ↔
      m ∈ ["a", "m", "i", "f", "r"]) ∧
    (∀ (wa : WordAligner)
      (aligner : List (List Char) → List (List Char) →
        List (String × List (Nat × Nat)))
      (src_text target_text : List Char) (err : String),
      get_word_alignment wa aligner src_text target_text = .error err →
      err = "Source or target text is empty" ∨ err = "IndexError") := by
  constructor
  · intro m
    have hkeys : all_matching_methods.map Prod.fst =
        ["a", "m", "i", "f", "r"] := rfl
    rw [← hkeys, ← lookup_some_iff_mem_keys m all_matching_methods]
    constructor
    · intro ⟨wa, hwa⟩
      rw [WordAligner.init] at hwa
      cases hlk : all_matching_methods.lookup m with
      | none => rw [hlk] at hwa; simp at hwa
      | some full => exact ⟨full, rfl⟩
    · intro ⟨v, hv⟩
      refine ⟨⟨v⟩, ?_⟩
      rw [WordAligner.init, hv]
  · intro wa aligner src_text target_text err h
    rw [get_word_alignment_eq] at h
    by_cases hc : tokenize src_text = [] ∨ tokenize target_text = []
    · rw [if_pos hc] at h
      injection h with h
      exact Or.inl h.symm
    · rw [if_neg hc] at h
      cases hfm : findMethod wa.method
          (aligner ((tokenize src_text).map (fun t => t.1))
            ((tokenize target_text).map (fun t => t.1))) with
      | none => rw [hfm] at h; simp at h
      | some pairs =>
        rw [hfm] at h
        exact Or.inr (assemble_error _ _ pairs err h)

theorem c7_method_validation_witness :
    (∃ wa, WordAligner.init ("m") = .ok wa) ∧
    ¬ (∃ wa, WordAligner.init ("z") = .ok wa) ∧
    ("IndexError" = "Source or target text is empty" ∨
      ("IndexError" : String) = "IndexError") :=
  ⟨(c7_method_validation.1 ("m")).mpr (by decide),
   fun hz => by
     have hmem := (c7_method_validation.1 ("z")).mp hz
     exact absurd hmem (by decide),
   c7_method_validation.2 ⟨"mwmf"⟩ (fun _ _ => [("mwmf", [(5, 0)])])
     (("a").data) (("b").data) ("IndexError") rfl⟩

/-- C8: over a non-empty similarity matrix with `S` rows of width
`T ≥ 1`, the `forward` method emits exactly one pair per source index,
each pair being `(i, argmax_j matrix[i][j])` with ties broken by the
lowest target index. -/
theorem c8_forward_argmax (matrix : List (List ℚ)) (S T : Nat)
    (hS : matrix.length = S) (hrows : ∀ row ∈ matrix, row.length = T)
    (hT : 0 < T) :
    (forward matrix).length = S ∧
    ∀ i, i < S →
      ∃ j, (forward matrix)[i]? = some (i, j) ∧ j < T ∧
        (∀ u, u < T →
          (matrix.getD i []).getD u 0 ≤ (matrix.getD i []).getD j 0) ∧
        (∀ u, u < j →
          (matrix.getD i []).getD u 0 < (matrix.getD i []).getD j 0) := by
  constructor
  · rw [forward, List.length_map, List.length_range, hS]
  · intro i hi
    have hilen : i < matrix.length := by omega
    have hrowD : matrix.getD i [] = matrix[i] :=
      List.getD_eq_getElem matrix [] hilen
    have hmem : matrix[i] ∈ matrix := List.getElem_mem hilen
    have hlen : (matrix.getD i []).length = T := by
      rw [hrowD]
      exact hrows _ hmem
    have hne : matrix.getD i [] ≠ [] := by
      intro hnil
      rw [hnil] at hlen
      simp at hlen
      omega
    obtain ⟨hlt, hle, hstrict⟩ := argmaxRow_spec (matrix.getD i []) hne
    refine ⟨argmaxRow (matrix.getD i []), ?_, by omega, ?_, hstrict⟩
    · rw [forward, List.getElem?_map, List.getElem?_range hilen]
      simp
    · intro u hu
      exact hle u (by omega)

theorem c8_forward_argmax_witness :
    (forward [[(1 : ℚ), 1]]).length = 1 ∧
    ∃ j, (forward [[(1 : ℚ), 1]])[0]? = some (0, j) ∧ j < 2 ∧
      (∀ u, u < 2 →
        (([[(1 : ℚ), 1]]).getD 0 []).getD u 0 ≤
          (([[(1 : ℚ), 1]]).getD 0 []).getD j 0) ∧
      (∀ u, u < j →
        (([[(1 : ℚ), 1]]).getD 0 []).getD u 0 <
          (([[(1 : ℚ), 1]]).getD 0 []).getD j 0) :=
  ⟨(c8_forward_argmax [[(1 : ℚ), 1]] 1 2 rfl
      (by
        intro row hrow
        simp only [List.mem_singleton] at hrow
        rw [hrow]
        rfl)
      (by omega)).1,
   (c8_forward_argmax [[(1 : ℚ), 1]] 1 2 rfl
      (by
        intro row hrow
        simp only [List.mem_singleton] at hrow
        rw [hrow]
        rfl)
      (by omega)).2 0 (by omega)⟩

/-- C9: the tokenizer is a deterministic pure function — equal inputs
yield identical token sequences — and performs no normalization: every
token's text is the raw slice of the input string. -/
theorem c9_tokenizer_pure (t1 t2 : List Char) (heq : t1 = t2) :
    tokenize t1 = tokenize t2 ∧
    ∀ w s e, (w, s, e) ∈ tokenize t1 → w = pySlice t1 s e := by
  subst heq
  exact ⟨rfl, fun w s e hm => (tokenize_sound t1 w s e hm).2.2.2.1⟩

theorem c9_tokenizer_pure_witness :
    tokenize (("a b").data) = tokenize (("a b").data) ∧
    ['b'] = pySlice (("a b").data) 2 3 :=
  ⟨(c9_tokenizer_pure (("a b").data) (("a b").data) rfl).1,
   (c9_tokenizer_pure (("a b").data) (("a b").data) rfl).2 ['b'] 2 3
     (by decide)⟩

/-- C10: constructing a `WordAligner` with the default argument resolves
the method to `mwmf`, so `get_word_alignment` on a default-constructed
instance returns exactly the records assembled from the `mwmf` entry of
the upstream result. -/
theorem c10_default_mwmf :
    WordAligner.initDefault = .ok ⟨"mwmf"⟩ ∧
    ∀ wa, WordAligner.initDefault = .ok wa →
      ∀ (aligner : List (List Char) → List (List Char) →
          List (String × List (Nat × Nat)))
        (src_text target_text : List Char),
        tokenize src_text ≠ [] → tokenize target_text ≠ [] →
        get_word_alignment wa aligner src_text target_text =
          match findMethod ("mwmf")
              (aligner ((tokenize src_text).map (fun t => t.1))
                ((tokenize target_text).map (fun t => t.1))) with
          | some pairs =>
            assemble (tokenize src_text) (tokenize target_text) pairs
          | none => .ok [] := by
  constructor
  · rfl
  · intro wa hwa aligner src_text target_text hs ht
    have hok : (Except.ok ⟨"mwmf"⟩ : Except String WordAligner) = Except.ok wa := by
      rw [← hwa]
      rfl
    injection hok with hok
    rw [← hok]
    rw [get_word_alignment_eq,
      if_neg (by
        intro hcon
        rcases hcon with hc | hc
        · exact hs hc
        · exact ht hc)]

theorem c10_default_mwmf_witness :
    get_word_alignment ⟨"mwmf"⟩
        (fun _ _ => [("itermax", [(0, 1)]), ("mwmf", [(0, 0)])])
        (("a").data) (("b").data) =
      .ok [{ src_word := ['a'], target_word := ['b'],
             src_indexes := (0, 1), target_indexes := (0, 1) }] := by
  have h := c10_default_mwmf.2 ⟨"mwmf"⟩ rfl
    (fun _ _ => [("itermax", [(0, 1)]), ("mwmf", [(0, 0)])])
    (("a").data) (("b").data) (by decide) (by decide)
  rw [h]
  rfl
